import Mathlib

/-!
# Verification of the real-time voice subsystem

Shallow embedding, in Lean 4, of the audio worklets and the voice manager of
the `ai-encyclopedia-assistant` repository:

* `PCMPlayerProcessor` (playback jitter buffer) — `frontend` worklet
  `pcm-player.js`: `port.onmessage` enqueue / clear, and the `process`
  callback that fills each output block;
* `PCMRecorderProcessor` (capture resampler and frame packetizer) — worklet
  `pcm-recorder.js`: the nearest-sample decimation loop, the float→int16
  conversion, and the 1600-sample chunk drain;
* `VoiceManager` (`frontend/js/voice.js`): the WebSocket send guards, the
  `onclose` reconnect scheduling, the listening/connection flags, and the
  `_handleEvent` dispatch of JSON control messages.

JavaScript numbers are embedded as `ℚ` (exact arithmetic); 16-bit PCM wire
samples as `ℤ` with the ECMAScript `ToInt16` wraparound made explicit.
All definitions are computable and follow the JavaScript source line by line.
-/

namespace Voice

/-! ## PCMPlayerProcessor — the playback jitter buffer

`this.buffer` is a `Float32Array`, embedded as `List ℚ` (front = oldest). -/

/-- Int16 → float conversion done per sample by the enqueue handler
(`float32[i] = int16Samples[i] / 32768`). -/
def toFloat32 (s : ℤ) : ℚ := (s : ℚ) / 32768

/-- Enqueue handler (`port.onmessage`): ignores an empty/missing sample array,
otherwise converts each Int16 sample to float (divide by 32768) and appends
to the tail of the buffer. -/
def playerEnqueue (buffer : List ℚ) (int16Samples : List ℤ) : List ℚ :=
  if int16Samples.isEmpty then buffer
  else buffer ++ int16Samples.map toFloat32

/-- Clear handler (`port.onmessage` with `command: 'clear'`): drops all buffered samples. -/
def playerClear (_buffer : List ℚ) : List ℚ := []

/-- The `process(inputs, outputs)` callback filling one output block of
`n` samples.  Returns `(channel, buffer')`: the samples written to the
output channel and the buffer left behind.  Mirrors the three branches of
the source: full copy, partial copy + zero fill, silence. -/
def playerProcess (buffer : List ℚ) (n : ℕ) : List ℚ × List ℚ :=
  if n ≤ buffer.length then
    (buffer.take n, buffer.drop n)
  else if 0 < buffer.length then
    (buffer ++ List.replicate (n - buffer.length) 0, [])
  else
    (List.replicate n 0, [])

/-- The three branches of `playerProcess` collapse to one equation:
the output is the oldest `min n m` samples padded with `n - m` zeros, and
the new buffer is the old one with the first `n` samples removed. -/
theorem playerProcess_eq (buffer : List ℚ) (n : ℕ) :
    playerProcess buffer n =
      (buffer.take n ++ List.replicate (n - buffer.length) 0, buffer.drop n) := by
  unfold playerProcess
  rcases le_or_lt n buffer.length with h | h
  · rw [if_pos h]
    have : n - buffer.length = 0 := Nat.sub_eq_zero_of_le h
    simp [this]
  · rw [if_neg (not_le.mpr h)]
    rcases Nat.eq_zero_or_pos buffer.length with h0 | h0
    · have hb : buffer = [] := List.length_eq_zero.mp h0
      subst hb
      simp
    · rw [if_pos h0]
      have : buffer.take n = buffer := List.take_of_length_le (le_of_lt h)
      have hd : buffer.drop n = [] := List.drop_eq_nil_of_le (le_of_lt h)
      simp [this, hd]

/-- C1: every `pull(n)` (one `process` callback filling an `n`-sample block)
returns exactly `n` samples: the oldest buffered samples first, then zero
padding once the buffer is exhausted; the samples returned are removed, so an
underrun leaves the buffer empty.  The function is total (never blocks, never
throws). -/
theorem player_pull_exact (buffer : List ℚ) (n : ℕ) :
    (playerProcess buffer n).1.length = n ∧
    (playerProcess buffer n).1 =
      buffer.take n ++ List.replicate (n - buffer.length) 0 ∧
    (playerProcess buffer n).2 = buffer.drop n := by
  rw [playerProcess_eq]
  refine ⟨?_, rfl, rfl⟩
  simp [List.length_take]
  omega

/-- A sequence of `port.onmessage` enqueue calls, one inbound frame each. -/
def enqueueRun (buffer : List ℚ) (frames : List (List ℤ)) : List ℚ :=
  frames.foldl playerEnqueue buffer

/-- A sequence of `process` callbacks with block sizes `ns`.  Returns the
concatenation of all output blocks and the final buffer. -/
def pullRun (buffer : List ℚ) : List ℕ → List ℚ × List ℚ
  | [] => ([], buffer)
  | n :: ns =>
    ((playerProcess buffer n).1 ++ (pullRun (playerProcess buffer n).2 ns).1,
     (pullRun (playerProcess buffer n).2 ns).2)

theorem playerEnqueue_eq (buffer : List ℚ) (frame : List ℤ) :
    playerEnqueue buffer frame = buffer ++ frame.map toFloat32 := by
  rcases frame with _ | ⟨x, xs⟩ <;> simp [playerEnqueue]

/-- Enqueueing a sequence of frames appends the converted concatenation of
those frames: frame boundaries are invisible in the resulting buffer. -/
theorem enqueueRun_eq (frames : List (List ℤ)) (buffer : List ℚ) :
    enqueueRun buffer frames = buffer ++ frames.flatten.map toFloat32 := by
  induction frames generalizing buffer with
  | nil => simp [enqueueRun]
  | cons f fs ih =>
    simp only [enqueueRun, List.foldl_cons, List.flatten_cons, List.map_append,
      playerEnqueue_eq]
    rw [show List.foldl playerEnqueue (buffer ++ List.map toFloat32 f) fs =
          enqueueRun (buffer ++ List.map toFloat32 f) fs from rfl, ih]
    simp [List.append_assoc]

/-- Over any sequence of pulls totalling `T` samples, the concatenated output
is the oldest `T` buffered samples followed by `T - m` zeros, and the final
buffer is the old one with its first `T` samples removed. -/
theorem pullRun_eq (ns : List ℕ) (buffer : List ℚ) :
    (pullRun buffer ns).1 =
      buffer.take ns.sum ++ List.replicate (ns.sum - buffer.length) 0 ∧
    (pullRun buffer ns).2 = buffer.drop ns.sum := by
  induction ns generalizing buffer with
  | nil => simp [pullRun]
  | cons n ns ih =>
    simp only [pullRun, playerProcess_eq, List.sum_cons]
    rcases ih (buffer.drop n) with ⟨h1, h2⟩
    constructor
    · rw [h1]
      rcases le_or_lt n buffer.length with h | h
      · have hsub : n - buffer.length = 0 := Nat.sub_eq_zero_of_le h
        have hlen : (buffer.drop n).length = buffer.length - n :=
          List.length_drop n buffer
        rw [hsub]
        simp only [List.replicate_zero, List.append_nil, hlen]
        rw [← List.append_assoc, ← List.take_add]
        have : ns.sum - (buffer.length - n) = n + ns.sum - buffer.length := by
          omega
        rw [this]
      · have htk : buffer.take n = buffer := List.take_of_length_le h.le
        have hdr : buffer.drop n = [] := List.drop_eq_nil_of_le h.le
        have htk2 : buffer.take (n + ns.sum) = buffer :=
          List.take_of_length_le (by omega)
        rw [hdr] at h1 ⊢
        simp only [htk, htk2, List.take_nil, List.nil_append,
          List.length_nil, Nat.sub_zero, List.append_assoc]
        try rw [← List.replicate_add,
          show n - buffer.length + ns.sum = n + ns.sum - buffer.length by omega]
    · rw [h2, List.drop_drop]

/-- C2 counterexample: enqueue the single frame `[0]` (the int16 sample 0 is a
legitimate audio sample), then pull one sample.  The pull delivers `[0]`, so
the non-zero samples delivered (`[]`) are not the enqueued samples (`[0]`). -/
theorem player_order_nonzero_cex :
    (pullRun (enqueueRun [] [[(0 : ℤ)]]) [1]).1.filter (fun x => x ≠ 0) ≠
      ([[(0 : ℤ)]] : List (List ℤ)).flatten.map toFloat32 := by
  have h0 : toFloat32 0 = 0 := by
    simp [toFloat32]
  simp [pullRun, enqueueRun, playerEnqueue, playerProcess, h0, List.filter]

/-- C2 amended: for every grouping of enqueued samples into frames and every
sequence of pulls totalling `T` samples, the concatenated pull output is
exactly the enqueued samples in append order (converted to float), truncated
to `T`, followed by zero padding once the enqueued stream is exhausted.  Only
the concatenation of the frames matters, so frame boundaries never reorder,
drop, or duplicate samples. -/
theorem player_order_preserved (frames : List (List ℤ)) (ns : List ℕ) :
    (pullRun (enqueueRun [] frames) ns).1 =
      (frames.flatten.map toFloat32).take ns.sum ++
        List.replicate (ns.sum - (frames.flatten.map toFloat32).length) 0 := by
  rw [enqueueRun_eq, List.nil_append]
  exact (pullRun_eq ns (frames.flatten.map toFloat32)).1

/-! ## PCMRecorderProcessor — resampler, int16 conversion, packetizer

`this.sampleIndex` and `this.ratio` are JS numbers, embedded as `ℚ`;
`this.buffer` holds the scaled (not yet truncated) samples pushed by the
downsample loop; truncation to Int16 happens at `new Int16Array(samples)`
when a chunk is sent. -/

/-- Clamp `Math.max(-1, Math.min(1, x))`. -/
def clampQ (x : ℚ) : ℚ := max (-1) (min 1 x)

/-- Scaling `const int16 = s < 0 ? s * 32768 : s * 32767` applied to the clamped
sample: symmetric scaling into the int16 range. -/
def scaleInt16 (x : ℚ) : ℚ :=
  if clampQ x < 0 then clampQ x * 32768 else clampQ x * 32767

/-- Truncation toward zero, as ECMAScript `ToIntegerOrInfinity` does when a
JS number is stored into an `Int16Array`. -/
def qtrunc (q : ℚ) : ℤ := if q < 0 then -⌊-q⌋ else ⌊q⌋

/-- ECMAScript `ToInt16`: truncate toward zero, reduce mod 2^16, reinterpret
as a signed 16-bit value. -/
def toInt16 (q : ℚ) : ℤ :=
  if 32768 ≤ qtrunc q % 65536 then qtrunc q % 65536 - 65536 else qtrunc q % 65536

/-- One iteration of the downsample loop: `sampleIndex += 1`; when it reaches
`ratio`, subtract `ratio` and emit the clamped, scaled sample.  Returns the
new `sampleIndex` and the emitted sample, if any. -/
def resampleStep ( ratio st x : ℚ) : ℚ × Option ℚ :=
  if ratio ≤ st + 1 then (st + 1 - ratio, some (scaleInt16 x)) else (st + 1, none)

/-- The downsample loop over one input block: threads `sampleIndex` through
`resampleStep` and collects the emitted samples in order. -/
def resampleBlock ( ratio : ℚ) (st : ℚ) : List ℚ → ℚ × List ℚ
  | [] => (st, [])
  | x :: xs =>
    ((resampleBlock ratio (resampleStep ratio st x).1 xs).1,
     (resampleStep ratio st x).2.toList ++
       (resampleBlock ratio (resampleStep ratio st x).1 xs).2)

/-- A sequence of `process` calls: the phase `sampleIndex` is carried across
call boundaries; the emitted samples of all calls are concatenated. -/
def resampleCalls ( ratio : ℚ) (st : ℚ) : List (List ℚ) → ℚ × List ℚ
  | [] => (st, [])
  | b :: bs =>
    ((resampleCalls ratio (resampleBlock ratio st b).1 bs).1,
     (resampleBlock ratio st b).2 ++
       (resampleCalls ratio (resampleBlock ratio st b).1 bs).2)

theorem resampleBlock_append ( ratio st : ℚ) (xs ys : List ℚ) :
    resampleBlock ratio st (xs ++ ys) =
      ((resampleBlock ratio (resampleBlock ratio st xs).1 ys).1,
       (resampleBlock ratio st xs).2 ++
         (resampleBlock ratio (resampleBlock ratio st xs).1 ys).2) := by
  induction xs generalizing st with
  | nil => simp [resampleBlock]
  | cons x xs ih =>
    simp [resampleBlock, ih, List.append_assoc]

/-- Feeding the blocks one call at a time is the same as feeding their
concatenation in one call: the fractional phase is carried across calls. -/
theorem resampleCalls_flatten ( ratio st : ℚ) (blocks : List (List ℚ)) :
    resampleCalls ratio st blocks = resampleBlock ratio st blocks.flatten := by
  induction blocks generalizing st with
  | nil => simp [resampleCalls, resampleBlock]
  | cons b bs ih =>
    simp [resampleCalls, ih, resampleBlock_append]

/-- Phase invariant of the downsample loop for a decimating ratio (`1 ≤ r`):
starting from `0 ≤ st < r`, after a block of `n` inputs with `k` emissions the
phase equals `st + n - k*r` and stays in `[0, r)`. -/
theorem resampleBlock_phase (r : ℚ) (hr : 1 ≤ r) (xs : List ℚ) :
    ∀ st : ℚ, 0 ≤ st → st < r →
      (resampleBlock r st xs).1 =
        st + xs.length - ((resampleBlock r st xs).2.length : ℚ) * r ∧
      0 ≤ (resampleBlock r st xs).1 ∧ (resampleBlock r st xs).1 < r := by
  induction xs with
  | nil =>
    intro st h0 h1
    simp [resampleBlock, h0, h1]
  | cons x xs ih =>
    intro st h0 h1
    by_cases hc : r ≤ st + 1
    · have hstep : resampleStep r st x = (st + 1 - r, some (scaleInt16 x)) := by
        simp [resampleStep, hc]
      have h0' : 0 ≤ st + 1 - r := by linarith
      have h1' : st + 1 - r < r := by linarith
      rcases ih (st + 1 - r) h0' h1' with ⟨e, l, u⟩
      refine ⟨?_, ?_, ?_⟩
      · simp only [resampleBlock, hstep, Option.toList_some, List.singleton_append,
          List.length_cons]
        rw [e]
        push_cast
        ring
      · simpa [resampleBlock, hstep] using l
      · simpa [resampleBlock, hstep] using u
    · have hstep : resampleStep r st x = (st + 1, none) := by
        simp [resampleStep, hc]
      have h0' : 0 ≤ st + 1 := by linarith
      have h1' : st + 1 < r := by linarith
      rcases ih (st + 1) h0' h1' with ⟨e, l, u⟩
      refine ⟨?_, ?_, ?_⟩
      · simp only [resampleBlock, hstep, Option.toList_none, List.nil_append,
          List.length_cons]
        rw [e]
        push_cast
        ring
      · simpa [resampleBlock, hstep] using l
      · simpa [resampleBlock, hstep] using u

/-- Exact output count of the downsample loop: starting at phase 0 with a
decimating ratio `1 ≤ r`, a run of `n` input samples emits `⌊n / r⌋` output
samples. -/
theorem resampleBlock_count (r : ℚ) (hr : 1 ≤ r) (xs : List ℚ) :
    ((resampleBlock r 0 xs).2.length : ℤ) = ⌊(xs.length : ℚ) / r⌋ := by
  have hrpos : (0 : ℚ) < r := lt_of_lt_of_le one_pos hr
  rcases resampleBlock_phase r hr xs 0 le_rfl hrpos with ⟨e, l, u⟩
  set k : ℕ := (resampleBlock r 0 xs).2.length with hk
  rw [e] at l u
  symm
  rw [Int.floor_eq_iff]
  constructor
  · rw [le_div_iff₀ hrpos]
    push_cast
    nlinarith
  · rw [div_lt_iff₀ hrpos]
    push_cast
    nlinarith

theorem floor_round_dist (q : ℚ) : |⌊q⌋ - round q| ≤ 1 := by
  have h1 : ⌊q⌋ ≤ ⌊q + 1 / 2⌋ := Int.floor_le_floor (by linarith)
  have h2 : ⌊q + 1 / 2⌋ ≤ ⌊q + 1⌋ := Int.floor_le_floor (by linarith)
  have h3 : ⌊q + 1⌋ = ⌊q⌋ + 1 := by
    exact_mod_cast Int.floor_add_int q 1
  rw [round_eq, abs_le]
  omega

/-- C3: for a device rate `Fs ∈ {44100, 48000, 16000}`, feeding any run of
input blocks (the phase being carried across call boundaries, so only the
concatenation matters) emits exactly `⌊N · 16000 / Fs⌋` samples for `N` total
inputs, which is within 1 of `round (N · 16000 / Fs)`. -/
theorem resampler_rate (Fs : ℕ) (hFs : Fs = 44100 ∨ Fs = 48000 ∨ Fs = 16000)
    (blocks : List (List ℚ)) :
    resampleCalls ((Fs : ℚ) / 16000) 0 blocks =
      resampleBlock ((Fs : ℚ) / 16000) 0 blocks.flatten ∧
    ((resampleCalls ((Fs : ℚ) / 16000) 0 blocks).2.length : ℤ) =
      ⌊(blocks.flatten.length : ℚ) * 16000 / Fs⌋ ∧
    |((resampleCalls ((Fs : ℚ) / 16000) 0 blocks).2.length : ℤ) -
        round ((blocks.flatten.length : ℚ) * 16000 / Fs)| ≤ 1 := by
  have hFs0 : (0 : ℚ) < (Fs : ℚ) := by
    rcases hFs with h | h | h <;> simp [h]
  have hr : 1 ≤ (Fs : ℚ) / 16000 := by
    rw [le_div_iff₀ (by norm_num : (0:ℚ) < 16000)]
    rcases hFs with h | h | h <;> norm_num [h]
  have hdiv : ((blocks.flatten.length : ℚ)) / ((Fs : ℚ) / 16000) =
      (blocks.flatten.length : ℚ) * 16000 / Fs := by
    field_simp
  have hcount :
      (((resampleBlock ((Fs : ℚ) / 16000) 0 blocks.flatten).2.length : ℤ)) =
        ⌊(blocks.flatten.length : ℚ) * 16000 / Fs⌋ := by
    rw [resampleBlock_count _ hr, hdiv]
  refine ⟨resampleCalls_flatten _ _ _, ?_, ?_⟩
  · rw [resampleCalls_flatten]
    exact hcount
  · rw [resampleCalls_flatten, hcount]
    exact floor_round_dist _

theorem resampler_rate_w :
    ((16000 : ℕ) = 44100 ∨ (16000 : ℕ) = 48000 ∨ (16000 : ℕ) = 16000) ∧
    ((resampleCalls ((16000 : ℚ) / 16000) 0 [[0], [0, 0]]).2.length : ℤ) =
      ⌊(([[(0:ℚ)], [0, 0]] : List (List ℚ)).flatten.length : ℚ) * 16000 / (16000 : ℕ)⌋ :=
  ⟨by norm_num, (resampler_rate 16000 (by norm_num) [[0], [0, 0]]).2.1⟩

theorem resampleBlock_length_le ( ratio : ℚ) (xs : List ℚ) :
    ∀ st : ℚ, (resampleBlock ratio st xs).2.length ≤ xs.length := by
  induction xs with
  | nil => intro st; simp [resampleBlock]
  | cons x xs ih =>
    intro st
    simp only [resampleBlock, List.length_append, List.length_cons]
    have : ((resampleStep ratio st x).2.toList).length ≤ 1 := by
      rcases (resampleStep ratio st x).2 with _ | v <;> simp
    have h2 := ih (resampleStep ratio st x).1
    omega

theorem resampleBlock_length_eq ( ratio : ℚ) (hr : ratio ≤ 1) (xs : List ℚ) :
    ∀ st : ℚ, 0 ≤ st → (resampleBlock ratio st xs).2.length = xs.length := by
  induction xs with
  | nil => intro st _; simp [resampleBlock]
  | cons x xs ih =>
    intro st hst
    have hc : ratio ≤ st + 1 := by linarith
    have hstep : resampleStep ratio st x = (st + 1 - ratio, some (scaleInt16 x)) := by
      simp [resampleStep, hc]
    have h0' : 0 ≤ st + 1 - ratio := by linarith
    simp [resampleBlock, hstep, ih _ h0']

/-- C10: each iteration of the downsample loop emits at most one output
sample, so the output count never exceeds the input count; and when the
device rate is at most 16000 (ratio ≤ 1) every iteration emits, so the
output runs at the device rate rather than being upsampled to 16 kHz. -/
theorem resampler_no_upsample ( ratio st : ℚ) (xs : List ℚ) (Fs : ℕ)
    (hFs : Fs ≤ 16000) :
    (resampleBlock ratio st xs).2.length ≤ xs.length ∧
    (resampleBlock ((Fs : ℚ) / 16000) 0 xs).2.length = xs.length := by
  constructor
  · exact resampleBlock_length_le ratio xs st
  · have hr : ((Fs : ℚ) / 16000) ≤ 1 := by
      rw [div_le_one (by norm_num : (0:ℚ) < 16000)]
      exact_mod_cast hFs
    exact resampleBlock_length_eq _ hr xs 0 le_rfl

theorem resampler_no_upsample_w :
    ((8000 : ℕ) ≤ 16000) ∧
    (resampleBlock (((8000 : ℕ) : ℚ) / 16000) 0 [(0 : ℚ), 0, 0]).2.length = 3 :=
  ⟨by norm_num, (resampler_no_upsample 1 0 [0, 0, 0] 8000 (by norm_num)).2⟩

theorem clampQ_mem (x : ℚ) : -1 ≤ clampQ x ∧ clampQ x ≤ 1 := by
  unfold clampQ
  constructor
  · exact le_max_left _ _
  · exact max_le (by norm_num) (min_le_left _ _)

theorem qtrunc_scale_range (x : ℚ) :
    -32768 ≤ qtrunc (scaleInt16 x) ∧ qtrunc (scaleInt16 x) ≤ 32767 := by
  rcases clampQ_mem x with ⟨hlo, hhi⟩
  unfold scaleInt16 qtrunc
  by_cases hneg : clampQ x < 0
  · have hv1 : -32768 ≤ clampQ x * 32768 := by nlinarith
    have hv2 : clampQ x * 32768 < 0 := by nlinarith
    rw [if_pos hneg, if_pos hv2]
    have hfl : ⌊-(clampQ x * 32768)⌋ ≤ 32768 := by
      have : -(clampQ x * 32768) ≤ ((32768 : ℤ) : ℚ) := by push_cast; linarith
      calc ⌊-(clampQ x * 32768)⌋ ≤ ⌊((32768 : ℤ) : ℚ)⌋ := Int.floor_le_floor this
        _ = 32768 := Int.floor_intCast _
    have hfl0 : 0 ≤ ⌊-(clampQ x * 32768)⌋ := Int.floor_nonneg.mpr (by linarith)
    omega
  · have h0 : 0 ≤ clampQ x := le_of_not_lt hneg
    have hv1 : 0 ≤ clampQ x * 32767 := by nlinarith
    have hv2 : ¬clampQ x * 32767 < 0 := not_lt.mpr hv1
    rw [if_neg hneg, if_neg hv2]
    have hfl : ⌊clampQ x * 32767⌋ ≤ 32767 := by
      have : clampQ x * 32767 ≤ ((32767 : ℤ) : ℚ) := by push_cast; nlinarith
      calc ⌊clampQ x * 32767⌋ ≤ ⌊((32767 : ℤ) : ℚ)⌋ := Int.floor_le_floor this
        _ = 32767 := Int.floor_intCast _
    have hfl0 : 0 ≤ ⌊clampQ x * 32767⌋ := Int.floor_nonneg.mpr hv1
    omega

theorem toInt16_eq_of_range (q : ℚ) (h1 : -32768 ≤ qtrunc q)
    (h2 : qtrunc q ≤ 32767) : toInt16 q = qtrunc q := by
  unfold toInt16
  split <;> omega

/-- C4: every captured sample, after the clamp, is converted to a 16-bit
value in `[-32768, 32767]`; the `Int16Array` wraparound is the identity on
the scaled value (no overflow), `+1.0` maps to `32767` (it never wraps to
`-32768`), and `-1.0` maps to `-32768`. -/
theorem int16_conversion_safe (x : ℚ) :
    -32768 ≤ toInt16 (scaleInt16 x) ∧ toInt16 (scaleInt16 x) ≤ 32767 ∧
    toInt16 (scaleInt16 x) = qtrunc (scaleInt16 x) ∧
    toInt16 (scaleInt16 1) = 32767 ∧ toInt16 (scaleInt16 (-1)) = -32768 := by
  rcases qtrunc_scale_range x with ⟨h1, h2⟩
  have heq := toInt16_eq_of_range _ h1 h2
  have hone : scaleInt16 1 = 32767 := by
    norm_num [scaleInt16, clampQ]
  have hmone : scaleInt16 (-1) = -32768 := by
    norm_num [scaleInt16, clampQ]
  have htone : qtrunc (32767 : ℚ) = 32767 := by
    rw [qtrunc, if_neg (by norm_num)]
    rw [show (32767 : ℚ) = ((32767 : ℤ) : ℚ) by norm_num, Int.floor_intCast]
  have htmone : qtrunc (-32768 : ℚ) = -32768 := by
    rw [qtrunc, if_pos (by norm_num)]
    rw [show (-(-32768) : ℚ) = ((32768 : ℤ) : ℚ) by norm_num, Int.floor_intCast]
  refine ⟨by omega, by omega, heq, ?_, ?_⟩
  · rw [hone, toInt16_eq_of_range _ (by omega) (by omega), htone]
  · rw [hmone, toInt16_eq_of_range _ (by omega) (by omega), htmone]

/-! ## The chunk drain (Frame Packetizer) -/

/-- Chunk size `this.chunkSize = 1600` — 100 ms of 16 kHz audio. -/
def chunkSize : ℕ := 1600

/-- One `process` call seen by the packetizer: the resampled samples of the
call are pushed onto `this.buffer`; then, if at least `chunkSize` samples are
buffered, the oldest `chunkSize` are spliced off and sent as one frame. -/
def packetStep (buf input : List ℚ) : Option (List ℚ) × List ℚ :=
  if chunkSize ≤ (buf ++ input).length then
    (some ((buf ++ input).take chunkSize), (buf ++ input).drop chunkSize)
  else
    (none, buf ++ input)

/-- A sequence of `process` calls feeding the packetizer: collects the frames
sent, in order, and the retained remainder. -/
def packetRun (buf : List ℚ) : List (List ℚ) → List (List ℚ) × List ℚ
  | [] => ([], buf)
  | b :: bs =>
    ((packetStep buf b).1.toList ++ (packetRun (packetStep buf b).2 bs).1,
     (packetRun (packetStep buf b).2 bs).2)

/-- Invariant run of the packetizer: as long as every call contributes at
most `chunkSize` samples, a single drain per call keeps the buffer below
`chunkSize`, no sample is lost or reordered, every frame has exactly
`chunkSize` samples, and the frame count and remainder are the Euclidean
division of the total by `chunkSize`. -/
theorem packetRun_spec (blocks : List (List ℚ)) :
    ∀ buf : List ℚ, buf.length < chunkSize →
      (∀ b ∈ blocks, b.length ≤ chunkSize) →
      (packetRun buf blocks).1.flatten ++ (packetRun buf blocks).2 =
          buf ++ blocks.flatten ∧
      (∀ f ∈ (packetRun buf blocks).1, f.length = chunkSize) ∧
      (packetRun buf blocks).1.length =
          (buf.length + blocks.flatten.length) / chunkSize ∧
      (packetRun buf blocks).2.length =
          (buf.length + blocks.flatten.length) % chunkSize := by
  induction blocks with
  | nil =>
    intro buf hbuf _
    refine ⟨by simp [packetRun], by simp [packetRun], ?_, ?_⟩ <;>
      simp [packetRun, chunkSize] at hbuf ⊢ <;> omega
  | cons b bs ih =>
    intro buf hbuf hball
    have hb : b.length ≤ chunkSize := hball b (List.mem_cons_self b bs)
    have hbs : ∀ x ∈ bs, x.length ≤ chunkSize := fun x hx =>
      hball x (List.mem_cons_of_mem b hx)
    by_cases hd : chunkSize ≤ (buf ++ b).length
    · have hstep : packetStep buf b =
          (some ((buf ++ b).take chunkSize), (buf ++ b).drop chunkSize) := by
        unfold packetStep
        rw [if_pos hd]
      rw [List.length_append] at hd
      have hlen : ((buf ++ b).drop chunkSize).length < chunkSize := by
        simp only [List.length_drop, List.length_append]
        simp only [chunkSize] at hbuf hb hd ⊢
        omega
      rcases ih _ hlen hbs with ⟨e1, e2, e3, e4⟩
      simp only [List.length_drop, List.length_append] at e3 e4
      have htk : ((buf ++ b).take chunkSize).length = chunkSize := by
        rw [List.length_take, List.length_append]
        omega
      refine ⟨?_, ?_, ?_, ?_⟩
      · simp only [packetRun, hstep, Option.toList_some, List.singleton_append,
          List.flatten_cons, List.append_assoc]
        rw [e1, ← List.append_assoc, List.take_append_drop, List.append_assoc]
      · intro f hf
        simp only [packetRun, hstep, Option.toList_some,
          List.singleton_append, List.mem_cons] at hf
        rcases hf with rfl | hf
        · exact htk
        · exact e2 f hf
      · simp only [packetRun, hstep, Option.toList_some, List.singleton_append,
          List.length_cons, List.flatten_cons, List.length_append]
        rw [e3]
        simp only [chunkSize] at hbuf hb hd ⊢
        omega
      · simp only [packetRun, hstep, List.flatten_cons, List.length_append]
        rw [e4]
        simp only [chunkSize] at hbuf hb hd ⊢
        omega
    · have hstep : packetStep buf b = (none, buf ++ b) := by
        unfold packetStep
        rw [if_neg hd]
      rw [List.length_append, not_le] at hd
      have hlen : (buf ++ b).length < chunkSize := by
        simpa [List.length_append] using hd
      rcases ih _ hlen hbs with ⟨e1, e2, e3, e4⟩
      simp only [List.length_append] at e3 e4
      refine ⟨?_, ?_, ?_, ?_⟩
      · simp only [packetRun, hstep, Option.toList_none, List.nil_append,
          List.flatten_cons]
        rw [e1, List.append_assoc]
      · intro f hf
        simp only [packetRun, hstep, Option.toList_none, List.nil_append] at hf
        exact e2 f hf
      · simp only [packetRun, hstep, Option.toList_none, List.nil_append,
          List.flatten_cons, List.length_append]
        rw [e3]
        simp only [chunkSize]
        omega
      · simp only [packetRun, hstep, Option.toList_none, List.nil_append,
          List.flatten_cons, List.length_append]
        rw [e4]
        simp only [chunkSize]
        omega

/-- C5: feeding the packetizer `1600*k + r` resampled samples (`r < 1600`),
in calls of at most 1600 samples each (the worklet's render quantum is 128),
emits exactly `k` frames of exactly 1600 samples each, oldest first, and
retains exactly the last `r` samples; with `r = 0` the retained remainder is
empty. -/
theorem packetizer_exact (blocks : List (List ℚ)) (k r : ℕ)
    (hb : ∀ b ∈ blocks, b.length ≤ 1600)
    (hlen : blocks.flatten.length = 1600 * k + r) (hr : r < 1600) :
    (packetRun [] blocks).1.length = k ∧
    (∀ f ∈ (packetRun [] blocks).1, f.length = 1600) ∧
    (packetRun [] blocks).1.flatten = blocks.flatten.take (1600 * k) ∧
    (packetRun [] blocks).2 = blocks.flatten.drop (1600 * k) := by
  rcases packetRun_spec blocks [] (by simp [chunkSize]) hb with ⟨e1, e2, e3, e4⟩
  simp only [List.length_nil, Nat.zero_add, List.nil_append] at e1 e3 e4
  simp only [chunkSize] at e2 e3 e4
  have hk : (packetRun [] blocks).1.length = k := by
    rw [e3, hlen]
    omega
  have hflen : (packetRun [] blocks).1.flatten.length = 1600 * k := by
    have hmem : ∀ x ∈ (packetRun [] blocks).1.map List.length, x = 1600 := by
      intro x hx
      rcases List.mem_map.mp hx with ⟨f, hf, rfl⟩
      exact e2 f hf
    have hrep := List.eq_replicate_of_mem hmem
    rw [List.length_flatten, hrep, List.sum_replicate, List.length_map, hk,
      smul_eq_mul, Nat.mul_comm]
  refine ⟨hk, e2, ?_, ?_⟩
  · rw [← e1, List.take_left' hflen]
  · rw [← e1, List.drop_left' hflen]

theorem packetizer_exact_w :
    ([List.replicate 1600 (0 : ℚ)] : List (List ℚ)).flatten.length =
      1600 * 1 + 0 ∧
    (packetRun [] [List.replicate 1600 (0 : ℚ)]).1.length = 1 :=
  ⟨by simp only [List.flatten_cons, List.flatten_nil, List.append_nil,
      List.length_replicate],
   (packetizer_exact [List.replicate 1600 0] 1 0
      (by
        intro b hb
        rw [List.mem_singleton] at hb
        subst hb
        rw [List.length_replicate])
      (by simp only [List.flatten_cons, List.flatten_nil, List.append_nil,
        List.length_replicate])
      (by norm_num)).1⟩

/-! ## VoiceManager (`frontend/js/voice.js`) -/

/-- The `WebSocket.readyState` constants. -/
inductive WSReadyState
  | CONNECTING
  | OPEN
  | CLOSING
  | CLOSED
deriving DecidableEq

/-- The guard in `recorderNode.port.onmessage`: a binary PCM chunk reaches
`ws.send` only if a socket exists and `this.ws.readyState === WebSocket.OPEN`.
Returns the frame put on the wire, if any; nothing is queued otherwise. -/
def sendBinary (ws : Option WSReadyState) (frame : List ℤ) : Option (List ℤ) :=
  match ws with
  | some WSReadyState.OPEN => some frame
  | _ => none

/-- Text command send `sendText(text)`: the same guard for the JSON text command
`{type: 'text', data: text}`. -/
def sendText (ws : Option WSReadyState) (text : String) : Option String :=
  match ws with
  | some WSReadyState.OPEN => some text
  | _ => none

/-- C6: any outbound send — binary audio frame or text command — attempted
while the socket is absent or its state is not OPEN transmits nothing, queues
nothing, and does not throw (the guard is a total no-op). -/
theorem send_noop_when_not_open (ws : Option WSReadyState) (frame : List ℤ)
    (text : String) (h : ws ≠ some WSReadyState.OPEN) :
    sendBinary ws frame = none ∧ sendText ws text = none := by
  cases ws with
  | none => exact ⟨rfl, rfl⟩
  | some s =>
    cases s with
    | OPEN => exact absurd rfl h
    | CONNECTING => exact ⟨rfl, rfl⟩
    | CLOSING => exact ⟨rfl, rfl⟩
    | CLOSED => exact ⟨rfl, rfl⟩

theorem send_noop_when_not_open_w :
    ((none : Option WSReadyState) ≠ some WSReadyState.OPEN) ∧
    sendBinary none [1] = none ∧ sendText none "play" = none :=
  ⟨by decide, send_noop_when_not_open none [1] "play" (by decide)⟩

/-- The observable `VoiceManager` session flags and the last status string
pushed through `onStatusChange`. -/
structure VMState where
  isListening : Bool
  isConnected : Bool
  status : String
deriving DecidableEq

/-- Constructor state: both flags false, no status yet. -/
def vmInit : VMState := { isListening := false, isConnected := false, status := "" }

/-- Close handler `ws.onclose`: clears `isConnected`, reports the reconnecting status, and
unconditionally schedules `_connect` again via `setTimeout(..., 3000)` —
the returned value is the scheduled delay (ms). -/
def wsCloseHandler (s : VMState) : VMState × Option ℕ :=
  ({ s with isConnected := false, status := "Disconnected - reconnecting..." },
   some 3000)

/-- The externally triggered transitions of `VoiceManager`. -/
inductive VMEvent
  | wsOpen
  | wsClose
  | micGranted
  | micDenied
  | stopListening
deriving DecidableEq

/-- One transition, straight from the handlers in `voice.js`:
`ws.onopen`, `ws.onclose`, the success and catch paths of `startListening`
(note: neither consults `isConnected`), and `stopListening`. -/
def vmStep (s : VMState) : VMEvent → VMState
  | VMEvent.wsOpen =>
      { s with isConnected := true, status := "Connected - click mic to speak" }
  | VMEvent.wsClose => (wsCloseHandler s).1
  | VMEvent.micGranted =>
      { s with isListening := true, status := "Listening..." }
  | VMEvent.micDenied =>
      { s with status := "Microphone access denied" }
  | VMEvent.stopListening =>
      { s with isListening := false,
               status := if s.isConnected then "Click mic to speak"
                         else "Disconnected" }

/-- A run of the session from a start state through a sequence of events. -/
def vmRun (s : VMState) (es : List VMEvent) : VMState := es.foldl vmStep s

/-- The state and the scheduled reconnect delays after `k` consecutive
connection failures (each failure fires `ws.onclose`). -/
def reconnectTrace (s : VMState) : ℕ → VMState × List (Option ℕ)
  | 0 => (s, [])
  | Nat.succ k =>
    ((reconnectTrace (wsCloseHandler s).1 k).1,
     (wsCloseHandler s).2 :: (reconnectTrace (wsCloseHandler s).1 k).2)

/-- C7 counterexample: after 2 consecutive failures the code has scheduled
the delays `[3000, 3000]` (ms), while `min(base·k, cap)` with base 3000 and
cap 15000 predicts `[3000, 6000]`: the second scheduled delay differs. -/
theorem backoff_cex :
    (reconnectTrace vmInit 2).2 = [some 3000, some 3000] ∧
    [some 3000, some (min (3000 * 2) 15000)] ≠
      ([some 3000, some 3000] : List (Option ℕ)) := by
  exact ⟨rfl, by decide⟩

/-- C7 amended: every connection failure schedules the next attempt after the
same constant 3000 ms delay — there is no growing backoff, no attempt cap
(a next attempt is always scheduled, for every `k`), and no terminal
"unavailable" status: the status after any failure is always the same
reconnecting message. -/
theorem backoff_constant (s : VMState) (k : ℕ) :
    (reconnectTrace s k).2 = List.replicate k (some 3000) ∧
    (reconnectTrace s (k + 1)).1.status = "Disconnected - reconnecting..." := by
  constructor
  · induction k generalizing s with
    | zero => rfl
    | succ n ih =>
      simp only [reconnectTrace, List.replicate_succ, List.cons.injEq]
      exact ⟨rfl, ih _⟩
  · induction k generalizing s with
    | zero => rfl
    | succ n ih =>
      exact ih (wsCloseHandler s).1

/-- C8 counterexample: connect, start the microphone, then lose the
connection.  The code leaves `isListening = true` with `isConnected = false`:
capture stays active on a dead channel (`ws.onclose` never stops capture, and
`startListening` never checks the connection). -/
theorem capture_invariant_cex :
    (vmRun vmInit [VMEvent.wsOpen, VMEvent.micGranted, VMEvent.wsClose]).isListening
        = true ∧
    (vmRun vmInit [VMEvent.wsOpen, VMEvent.micGranted, VMEvent.wsClose]).isConnected
        = false :=
  ⟨rfl, rfl⟩

/-- C8 amended: the capture flag and the connection flag evolve independently:
`ws.onclose` (and `ws.onopen`) never change `isListening`, `startListening`
sets `isListening` without consulting or changing `isConnected`, and only an
explicit `stopListening` clears it.  While the socket is not OPEN the frames
produced by the orphaned capture are dropped by the send guard instead of
being transmitted. -/
theorem capture_connection_independent (s : VMState) (frame : List ℤ) :
    (vmStep s VMEvent.wsClose).isListening = s.isListening ∧
    (vmStep s VMEvent.wsOpen).isListening = s.isListening ∧
    (vmStep s VMEvent.micGranted).isListening = true ∧
    (vmStep s VMEvent.micGranted).isConnected = s.isConnected ∧
    (vmStep s VMEvent.stopListening).isListening = false ∧
    sendBinary (some WSReadyState.CLOSED) frame = none :=
  ⟨rfl, rfl, rfl, rfl, rfl, rfl⟩

/-- A parsed inbound JSON control message, as consumed by `_handleEvent`.
`interim` embeds the JS field named `partial`; `data` carries the text or an
opaque payload. -/
structure VoiceEvent where
  type : String
  data : String
  interim : Bool
  is_output : Bool
deriving DecidableEq

/-- Which observer callback `_handleEvent` invokes, with its arguments. -/
inductive Dispatch
  | onTranscription (text : String) (interim : Bool)
  | onOutputTranscription (text : String)
  | onToolEvent (e : VoiceEvent)
deriving DecidableEq

/-- Dispatcher `_handleEvent`: the `switch (event.type)` of `voice.js`; `none` means no
callback is invoked (the silent default of the switch). -/
def handleEvent (e : VoiceEvent) : Option Dispatch :=
  if e.type = "input_transcription" then
    some (Dispatch.onTranscription e.data e.interim)
  else if e.type = "output_transcription" then
    some (Dispatch.onOutputTranscription e.data)
  else if e.type = "transcription" then
    if e.is_output then some (Dispatch.onOutputTranscription e.data)
    else some (Dispatch.onTranscription e.data false)
  else if e.type = "tool_call" then
    some (Dispatch.onToolEvent e)
  else if e.type = "tool_result" then
    some (Dispatch.onToolEvent e)
  else
    none

/-- C9 counterexample: the `error` and `voice_ready` control messages — both
variants of the spec's ControlEvent and both listed in its wire schema — fall
through the switch: no observer callback is invoked for them. -/
theorem dispatch_cex :
    handleEvent ⟨"error", "boom", false, false⟩ = none ∧
    handleEvent ⟨"voice_ready", "", false, false⟩ = none :=
  ⟨rfl, rfl⟩

/-- C9 amended: `_handleEvent` dispatches `input_transcription` (with its
partial flag), `output_transcription`, `transcription` (routed by
`is_output`, non-partial), `tool_call` and `tool_result` to the matching
observer callbacks; every other type — including `voice_ready` and `error` —
is ignored without error. -/
theorem dispatch_amended (d : String) (i o : Bool) (e : VoiceEvent)
    (h : e.type ∉ (["input_transcription", "output_transcription",
      "transcription", "tool_call", "tool_result"] : List String)) :
    handleEvent ⟨"input_transcription", d, i, o⟩ =
      some (Dispatch.onTranscription d i) ∧
    handleEvent ⟨"output_transcription", d, i, o⟩ =
      some (Dispatch.onOutputTranscription d) ∧
    handleEvent ⟨"transcription", d, i, true⟩ =
      some (Dispatch.onOutputTranscription d) ∧
    handleEvent ⟨"transcription", d, i, false⟩ =
      some (Dispatch.onTranscription d false) ∧
    handleEvent ⟨"tool_call", d, i, o⟩ =
      some (Dispatch.onToolEvent ⟨"tool_call", d, i, o⟩) ∧
    handleEvent ⟨"tool_result", d, i, o⟩ =
      some (Dispatch.onToolEvent ⟨"tool_result", d, i, o⟩) ∧
    handleEvent e = none := by
  simp only [List.mem_cons, List.mem_singleton, not_or] at h
  obtain ⟨h1, h2, h3, h4, h5⟩ := h
  refine ⟨rfl, rfl, rfl, rfl, rfl, rfl, ?_⟩
  simp [handleEvent, h1, h2, h3, h4, h5]

theorem dispatch_amended_w :
    (("error" : String) ∉ (["input_transcription", "output_transcription",
      "transcription", "tool_call", "tool_result"] : List String)) ∧
    handleEvent ⟨"error", "boom", false, false⟩ = none :=
  ⟨by decide,
   (dispatch_amended "t" false false ⟨"error", "boom", false, false⟩
      (by decide)).2.2.2.2.2.2⟩

end Voice
